import Mathlib

/-
A verification development for the core of the cooperative effect-driven task
runtime (redux-saga style): the single-consumer channel, the event channel,
the multicast channel, the counting-semaphore scheduler, the standard channel,
the effect interpreter's completion wrapper, the fork queue, and task
cancellation.  Every definition is a shallow embedding of the corresponding
JavaScript source (channel.js, scheduler.js, and the proc module); callbacks
are represented by ids and their invocations are recorded in explicit logs.
-/

namespace SagaCore

variable {α : Type}

/-- Values a single-consumer channel delivers to a taker callback: either an
ordinary payload or the END sentinel (channel.js, `END` / `isEnd`). -/
inductive ChVal (α : Type) where
  | v : α → ChVal α
  | END : ChVal α
  deriving DecidableEq, Repr

/-- State of the single-consumer channel (channel.js, `channel`): the `closed`
flag, the FIFO contents of the buffer, and the queue of pending taker
callbacks, represented by ids. -/
structure Chan (α : Type) where
  closed : Bool
  buffer : List α
  takers : List Nat
  deriving DecidableEq, Repr

/-- Modelled from the spec: the buffer module is not among the sources, so a
buffer is embedded as the list of its elements plus a put policy.  This is the
policy of `buffers.expanding()` (spec 4.B), the default buffer of `channel()`:
an unbounded FIFO, put appends. -/
def expandingPut (b : List α) (x : α) : List α := b ++ [x]

/-- Modelled from the spec: the policy of `buffers.none()` (spec 4.B), the
default buffer of `eventChannel`: size 0, always full with respect to put, so
put stores nothing. -/
def nonePut (b : List α) (_ : α) : List α := b

/-- A fresh channel: not closed, empty buffer, no takers. -/
def Chan.fresh : Chan α := ⟨false, [], []⟩

/-- channel.js `put(input)`: if closed, drop; if no taker is pending, hand the
input to the buffer; otherwise deliver to the oldest taker (`takers[0]`) and
remove it (`takers.splice(0, 1)`).  Returns the new state and the list of
callback invocations performed. -/
def Chan.put (bufPut : List α → α → List α) (x : α) (c : Chan α) :
    Chan α × List (Nat × ChVal α) :=
  if c.closed then (c, [])
  else
    match c.takers with
    | [] => ({ c with buffer := bufPut c.buffer x }, [])
    | cb :: rest => ({ c with takers := rest }, [(cb, ChVal.v x)])

/-- channel.js `take(cb)`: if closed and the buffer is empty, deliver END; if
the buffer is non-empty, deliver the oldest buffered value; otherwise enqueue
`cb` as a taker. -/
def Chan.take (cb : Nat) (c : Chan α) : Chan α × List (Nat × ChVal α) :=
  if c.closed && c.buffer.isEmpty then (c, [(cb, ChVal.END)])
  else
    match c.buffer with
    | b :: bs => ({ c with buffer := bs }, [(cb, ChVal.v b)])
    | [] => ({ c with takers := c.takers ++ [cb] }, [])

/-- channel.js `close()`: if not yet closed, set the flag, empty the takers
queue and deliver END to every taker that was pending. -/
def Chan.close (c : Chan α) : Chan α × List (Nat × ChVal α) :=
  if c.closed then (c, [])
  else ({ c with closed := true, takers := [] },
        c.takers.map (fun t => (t, ChVal.END)))

/-- An operation of the single-consumer channel interface exercised by the
invariant claim: put a value, take with a callback id, or close. -/
inductive ChOp (α : Type) where
  | put : α → ChOp α
  | take : Nat → ChOp α
  | close : ChOp α
  deriving DecidableEq, Repr

/-- Apply one channel operation (state part only). -/
def Chan.step (bufPut : List α → α → List α) (c : Chan α) (op : ChOp α) :
    Chan α :=
  match op with
  | ChOp.put x => (Chan.put bufPut x c).1
  | ChOp.take cb => (Chan.take cb c).1
  | ChOp.close => (Chan.close c).1

/-- Run a sequence of operations on a fresh channel. -/
def Chan.run (bufPut : List α → α → List α) (ops : List (ChOp α)) : Chan α :=
  ops.foldl (Chan.step bufPut) Chan.fresh

/-- The forbidden-state check of channel.js (`checkForbiddenStates`), phrased
positively: a closed channel has no pending takers, and pending takers imply
an empty buffer. -/
def Chan.wellFormed (c : Chan α) : Bool :=
  (!c.closed || c.takers.isEmpty) && (c.takers.isEmpty || c.buffer.isEmpty)

/-- State of the `eventChannel` wrapper (channel.js, `eventChannel`): the
local `closed` flag, whether the `unsubscribe` variable has been assigned the
return value of `subscribe` yet, how many times unsubscribe has been invoked,
and the inner single-consumer channel. -/
structure EvChanState (α : Type) where
  closedFlag : Bool
  unsubDefined : Bool
  unsubCalls : Nat
  chan : Chan α
  deriving DecidableEq, Repr

/-- The `close` closure of eventChannel: invoke `unsubscribe` if it is a
function (it is not one while `subscribe` is still running), then close the
inner channel. -/
def EvChanState.closeFn (s : EvChanState α) : EvChanState α :=
  let s1 := if s.unsubDefined then { s with unsubCalls := s.unsubCalls + 1 } else s
  { s1 with chan := (Chan.close s1.chan).1 }

/-- The emitter closure handed to `subscribe`: END routes to `close` and sets
the local flag; every other input is put into the inner channel. -/
def EvChanState.emit (bufPut : List α → α → List α) (s : EvChanState α)
    (input : ChVal α) : EvChanState α :=
  match input with
  | ChVal.END => { s.closeFn with closedFlag := true }
  | ChVal.v a => { s with chan := (Chan.put bufPut a s.chan).1 }

/-- Construction of an event channel whose `subscribe` function synchronously
performs the given emissions and then returns an unsubscribe function: run the
emissions with the unsubscribe variable still undefined, then assign it, and
if END was seen during subscribe, invoke the (once-wrapped) unsubscribe
immediately. -/
def eventChannel (bufPut : List α → α → List α) (emissions : List (ChVal α)) :
    EvChanState α :=
  let s0 : EvChanState α := ⟨false, false, 0, Chan.fresh⟩
  let s1 := emissions.foldl (EvChanState.emit bufPut) s0
  let s2 := { s1 with unsubDefined := true }
  if s2.closedFlag then { s2 with unsubCalls := s2.unsubCalls + 1 } else s2

/-- State of the exactly-once completion wrapper installed by `digestEffect`
(proc module): the `effectSettled` flag, the log of invocations of the
underlying continuation `cb` (payload and isErr), and the number of times the
downward cancel hook `currCb.cancel` has been propagated. -/
structure EffState where
  settled : Bool
  cbLog : List (Nat × Bool)
  downCancels : Nat
  deriving DecidableEq, Repr

/-- The wrapped completion callback `currCb(res, isErr)`: a no-op once
settled; otherwise settle and invoke the underlying continuation. -/
def EffState.currCb (s : EffState) (res : Nat) (isErr : Bool) : EffState :=
  if s.settled then s
  else { s with settled := true, cbLog := s.cbLog ++ [(res, isErr)] }

/-- The installed cancel `cb.cancel`: a no-op once settled; otherwise settle
and propagate the cancellation downward via `currCb.cancel`. -/
def EffState.cancelCb (s : EffState) : EffState :=
  if s.settled then s
  else { s with settled := true, downCancels := s.downCancels + 1 }

/-- The two external events that can reach the wrapper of one digested
effect: the effect completes (with a result or error), or the surrounding
task cancels it. -/
inductive EffOp where
  | complete : Nat → Bool → EffOp
  | cancel : EffOp
  deriving DecidableEq, Repr

/-- Apply one event to the wrapper state. -/
def EffState.step (s : EffState) (op : EffOp) : EffState :=
  match op with
  | EffOp.complete r e => s.currCb r e
  | EffOp.cancel => s.cancelCb

/-- The wrapper state of a freshly digested effect. -/
def EffState.init : EffState := ⟨false, [], 0⟩

/-- Run a sequence of completion/cancel events against one digested effect. -/
def digestRun (ops : List EffOp) : EffState :=
  ops.foldl EffState.step EffState.init

/-- Body of a task handed to the scheduler (scheduler.js): a task is the list
of the things it does while running — schedule a nested task via `asap`, or
perform an observable delivery (for the standard channel, the underlying
multicast put). -/
inductive TAct (α : Type) where
  | asapA : List (TAct α) → TAct α
  | emit : α → TAct α

/-- Instrumentation events of a scheduler run: each call of `asap` records the
semaphore value, the number of `exec` frames on the stack, and whether the
call flushed (executed work) rather than merely enqueueing; each entry into
`exec` records the number of `exec` frames already on the stack. -/
inductive SEvent where
  | asapCall : Nat → Nat → Bool → SEvent
  | execBegin : Nat → SEvent
  deriving DecidableEq, Repr

/-- State of the scheduler (scheduler.js): the counting semaphore, the FIFO
queue of pending task bodies, the number of `exec` frames currently on the
stack (instrumentation), the event trace, and the log of deliveries performed
by `emit` actions. -/
structure SState (α : Type) where
  semaphore : Nat
  queue : List (List (TAct α))
  execDepth : Nat
  events : List SEvent
  delivered : List α

/-- The scheduler at rest: zero locks, empty queue, nothing on the stack. -/
def initSState : SState α := ⟨0, [], 0, [], []⟩

mutual

/-- scheduler.js `asap(task)`: push the task on the queue; if the semaphore is
zero, `suspend()` then `flush()`.  The first argument is fuel: the JS run
terminates because tasks are finite, and the fuel bounds the recursion in the
embedding. -/
def asapFn : Nat → List (TAct α) → SState α → SState α
  | 0, _, s => s
  | Nat.succ f, t, s =>
    let s1 := { s with queue := s.queue ++ [t] }
    if s1.semaphore = 0 then
      let s2 := { s1 with
        events := s1.events ++ [SEvent.asapCall s1.semaphore s1.execDepth true] }
      flushFn f { s2 with semaphore := s2.semaphore + 1 }
    else
      { s1 with
        events := s1.events ++ [SEvent.asapCall s1.semaphore s1.execDepth false] }

/-- scheduler.js `flush()`: `release()`, then run queued tasks while the
semaphore is zero.  The release is unconditional, so it is performed even when
the fuel for the loop is exhausted. -/
def flushFn : Nat → SState α → SState α
  | 0, s => { s with semaphore := s.semaphore - 1 }
  | Nat.succ f, s => flushLoop f { s with semaphore := s.semaphore - 1 }

/-- The while loop of `flush`: while the semaphore is zero and the queue is
non-empty, dequeue one task and `exec` it. -/
def flushLoop : Nat → SState α → SState α
  | 0, s => s
  | Nat.succ f, s =>
    if s.semaphore = 0 then
      match s.queue with
      | [] => s
      | t :: rest => flushLoop f (execFn f t { s with queue := rest })
    else s

/-- scheduler.js `exec(task)`: `suspend()`, run the task body, and in a
finally block `release()`.  Entry into the body is recorded with the number of
`exec` frames that were already on the stack. -/
def execFn : Nat → List (TAct α) → SState α → SState α
  | 0, _, s => s
  | Nat.succ f, body, s =>
    let s1 := { s with
      semaphore := s.semaphore + 1,
      events := s.events ++ [SEvent.execBegin s.execDepth],
      execDepth := s.execDepth + 1 }
    let s2 := runActs f body s1
    { s2 with semaphore := s2.semaphore - 1, execDepth := s2.execDepth - 1 }

/-- Run a task body: perform its actions in order. -/
def runActs : Nat → List (TAct α) → SState α → SState α
  | 0, _, s => s
  | Nat.succ _, [], s => s
  | Nat.succ f, TAct.asapA body :: rest, s => runActs f rest (asapFn f body s)
  | Nat.succ f, TAct.emit a :: rest, s =>
    runActs f rest { s with delivered := s.delivered ++ [a] }

end

/-- A scheduler trace driven from the outside: a sequence of top-level `asap`
calls starting from the scheduler at rest. -/
def runTop (f : Nat) (ts : List (List (TAct α))) : SState α :=
  ts.foldl (fun s t => asapFn f t s) initSState

/-- Goodness of one trace event: a task never begins execution with another
`exec` frame on the stack, and an `asap` issued while an `exec` frame is on
the stack sees a non-zero semaphore and does not flush (it only enqueues). -/
def SEvent.ok : SEvent → Bool
  | SEvent.asapCall sem depth flushed =>
      decide (depth = 0) || (!flushed && decide (1 ≤ sem))
  | SEvent.execBegin depth => decide (depth = 0)

/-- Goodness of a whole trace. -/
def okEvents (evs : List SEvent) : Bool := evs.all SEvent.ok

/-- An input to the standard channel: a payload together with the internal
saga-action flag (`input[SAGA_ACTION]`). -/
structure SagaAction (α : Type) where
  sagaFlag : Bool
  payload : α
  deriving DecidableEq, Repr

/-- channel.js `stdChannel().put(input)`: inputs carrying the saga-action
flag are handed to the underlying multicast put synchronously; any other
input is deferred through the scheduler via `asap(() => put(input))`.  The
delivery to the multicast put is recorded in the scheduler's `delivered`
log. -/
def stdPut (f : Nat) (a : SagaAction α) (s : SState (SagaAction α)) :
    SState (SagaAction α) :=
  if a.sagaFlag then { s with delivered := s.delivered ++ [a] }
  else asapFn f [TAct.emit a] s

/-- State of a fork queue (proc module, `forkQueue`): the id of the
distinguished main task, the ids of the members whose continuation is still
live, the `completed` flag, the captured main result, the log of invocations
of the queue's upward continuation `cb`, the ids on which `t.cancel()` has
been invoked, and the snapshots recorded by `onAbort` (the names — here ids —
of the members still running at abort time). -/
structure FQState (α : Type) where
  mainId : Nat
  tasks : List Nat
  completed : Bool
  result : Option α
  upCalls : List (Option α × Bool)
  cancelled : List Nat
  abortRecords : List (List Nat)
  deriving DecidableEq, Repr

/-- A fresh fork queue holds exactly the main task (forkQueue calls
`addTask(mainTask)` first). -/
def FQState.fresh (mainId : Nat) : FQState α :=
  ⟨mainId, [mainId], false, none, [], [], []⟩

/-- The continuation forkQueue installs on a member (`task.cont`), invoked
when that member terminates: a no-op once the queue completed or once this
member's continuation was nulled (modelled by removal from `tasks`);
otherwise remove the member and either abort (on error: record the names of
the still-running members, cancel them all, report the error upward) or
capture the main result and, when the queue drains, report completion
upward. -/
def FQState.contStep (s : FQState α) (id : Nat) (res : α) (isErr : Bool) :
    FQState α :=
  if s.completed then s
  else if id ∈ s.tasks then
    let rest := s.tasks.erase id
    if isErr then
      { s with
        tasks := [],
        completed := true,
        abortRecords := s.abortRecords ++ [rest],
        cancelled := s.cancelled ++ rest,
        upCalls := s.upCalls ++ [(some res, true)] }
    else
      let result1 := if id = s.mainId then some res else s.result
      if rest.isEmpty then
        { s with
          tasks := [],
          completed := true,
          result := result1,
          upCalls := s.upCalls ++ [(result1, false)] }
      else { s with tasks := rest, result := result1 }
  else s

/-- Operations on a fork queue: a member's continuation fires, a new member
is attached (`addTask` in `runForkEffect`), or `cancelAll` is invoked by the
parent's cancellation. -/
inductive FQOp (α : Type) where
  | contOp : Nat → α → Bool → FQOp α
  | addTask : Nat → FQOp α
  | cancelAllOp : FQOp α
  deriving DecidableEq, Repr

/-- Apply one fork-queue operation.  `cancelAll` is a no-op once completed;
otherwise it marks the queue completed, cancels every remaining member and
clears the list. -/
def FQState.applyOp (s : FQState α) (op : FQOp α) : FQState α :=
  match op with
  | FQOp.contOp id res isErr => s.contStep id res isErr
  | FQOp.addTask id => { s with tasks := s.tasks ++ [id] }
  | FQOp.cancelAllOp =>
      if s.completed then s
      else { s with
        completed := true,
        cancelled := s.cancelled ++ s.tasks,
        tasks := [] }

/-- Apply a sequence of fork-queue operations. -/
def FQState.applyOps (s : FQState α) (ops : List (FQOp α)) : FQState α :=
  ops.foldl FQState.applyOp s

/-- Observable control state of one task handle (proc module): the iterator
status flags plus counters for the propagation performed by `cancel` and
`end` — `cancelAllCalls` counts `taskQueue.cancelAll()` invocations (the
propagation to child tasks and, through it, the pending effect),
`contCalls` counts invocations of the task's continuation, and
`joinerRounds` counts the joiner-notification sweeps of `end`. -/
structure TaskCtl where
  isRunning : Bool
  isCancelled : Bool
  isAborted : Bool
  cancelAllCalls : Nat
  contCalls : Nat
  joinerRounds : Nat
  deriving DecidableEq, Repr

/-- proc module `end(result, isErr)`: mark the iterator not running, record
the abort flag on error, invoke the task's continuation and notify the
joiners. -/
def TaskCtl.endStep (s : TaskCtl) (isErr : Bool) : TaskCtl :=
  { s with
    isRunning := false,
    isAborted := if isErr then true else s.isAborted,
    contCalls := s.contCalls + 1,
    joinerRounds := s.joinerRounds + 1 }

/-- proc module `cancel()`: only when the iterator is running and not yet
cancelled, set the cancelled flag, cancel all queue members
(`taskQueue.cancelAll()`), and end the task with TASK_CANCEL (which is not an
error). -/
def TaskCtl.cancelStep (s : TaskCtl) : TaskCtl :=
  if s.isRunning && !s.isCancelled then
    TaskCtl.endStep
      { s with isCancelled := true, cancelAllCalls := s.cancelAllCalls + 1 }
      false
  else s

/-- A freshly started task: running, not cancelled, not aborted. -/
def TaskCtl.fresh : TaskCtl :=
  ⟨true, false, false, 0, 0, 0⟩

/-- What a multicast taker callback does when invoked with a matched input
(channel.js, `multicastChannel`): it may register further takers
(`take(cb, matcher)`) and cancel registered takers (`cb.cancel()`).  A
registration carries the new callback's id, its match predicate and, in turn,
its own behaviour. -/
inductive MAct (α : Type) where
  | register : Nat → (α → Bool) → List (MAct α) → MAct α
  | cancelT : Nat → MAct α

/-- A registered multicast taker: callback id, the compiled match predicate
stored on it (`cb[MATCH]`), and its behaviour when invoked. -/
structure MTaker (α : Type) where
  id : Nat
  matchFn : α → Bool
  reaction : List (MAct α)

/-- An input to the multicast channel put: an ordinary action or the END
envelope. -/
inductive MIn (α : Type) where
  | act : α → MIn α
  | endM : MIn α

/-- State of the multicast channel (channel.js, `multicastChannel`): the
closed flag, the contents of the arrays referenced by `currentTakers` and
`nextTakers`, whether both variables reference the same array object
(`aliased`), the log of taker invocations performed by put, and the log of
END deliveries. -/
structure MState (α : Type) where
  closed : Bool
  current : List (MTaker α)
  next : List (MTaker α)
  aliased : Bool
  log : List (Nat × α)
  endLog : List Nat

/-- Remove the first taker with the given id (utils `remove` applied to a
registered callback; identity of callbacks is modelled by ids). -/
def removeTaker (id : Nat) : List (MTaker α) → List (MTaker α)
  | [] => []
  | t :: ts => if t.id = id then ts else t :: removeTaker id ts

/-- channel.js `ensureCanMutateNextTakers`: if `nextTakers` and
`currentTakers` are the same array object, make `nextTakers` a copy of
`currentTakers`. -/
def MState.ensureCanMutate (s : MState α) : MState α :=
  if s.aliased then { s with next := s.current, aliased := false } else s

/-- `nextTakers.push(cb)`: a push mutates the array object, so if the two
variables are aliased the change is visible through `currentTakers` too. -/
def MState.pushNext (s : MState α) (t : MTaker α) : MState α :=
  if s.aliased then { s with current := s.current ++ [t], next := s.next ++ [t] }
  else { s with next := s.next ++ [t] }

/-- `remove(nextTakers, cb)`: removal likewise mutates the array object. -/
def MState.removeNext (s : MState α) (id : Nat) : MState α :=
  if s.aliased then
    { s with current := removeTaker id s.current, next := removeTaker id s.next }
  else { s with next := removeTaker id s.next }

/-- multicastChannel `take(cb, matcher)`: on a closed channel deliver END
immediately; otherwise `ensureCanMutateNextTakers()` then push the taker. -/
def MState.takeOp (s : MState α) (id : Nat) (m : α → Bool)
    (r : List (MAct α)) : MState α :=
  if s.closed then { s with endLog := s.endLog ++ [id] }
  else (s.ensureCanMutate).pushNext ⟨id, m, r⟩

/-- The once-wrapped `cb.cancel` of a registered taker:
`ensureCanMutateNextTakers()` then remove the callback from `nextTakers`. -/
def MState.cancelOp (s : MState α) (id : Nat) : MState α :=
  (s.ensureCanMutate).removeNext id

/-- Perform one action of a running taker callback. -/
def MState.applyAct (s : MState α) : MAct α → MState α
  | MAct.register i m r => s.takeOp i m r
  | MAct.cancelT i => s.cancelOp i

/-- Perform the actions of a running taker callback in order. -/
def MState.applyActs (s : MState α) (acts : List (MAct α)) : MState α :=
  acts.foldl MState.applyAct s

/-- The for loop of multicast `put(input)` over the array assigned to
`currentTakers`, with the length re-read on every iteration as in JS: for
each matching taker, `taker.cancel()`, then invoke it (logged), then run its
behaviour.  Fuel bounds the recursion in the embedding. -/
def mputLoop (x : α) : Nat → Nat → MState α → MState α
  | 0, _, s => s
  | Nat.succ f, i, s =>
    if h : i < s.current.length then
      let t := s.current.get ⟨i, h⟩
      if t.matchFn x then
        let s1 := s.cancelOp t.id
        let s2 := { s1 with log := s1.log ++ [(t.id, x)] }
        mputLoop x f (i + 1) (s2.applyActs t.reaction)
      else mputLoop x f (i + 1) s
    else s

/-- multicastChannel `close()`: set the closed flag, assign
`currentTakers = nextTakers`, deliver END to every taker of that snapshot,
then replace `nextTakers` with a fresh empty array. -/
def MState.mclose (s : MState α) : MState α :=
  { s with
    closed := true,
    current := s.next,
    next := [],
    aliased := false,
    endLog := s.endLog ++ s.next.map MTaker.id }

/-- multicastChannel `put(input)`: drop if closed; close on END; otherwise
assign `currentTakers = nextTakers` (making the two variables reference the
same array object) and iterate. -/
def mput (fuel : Nat) (input : MIn α) (s : MState α) : MState α :=
  if s.closed then s
  else
    match input with
    | MIn.endM => s.mclose
    | MIn.act x => mputLoop x fuel 0 { s with current := s.next, aliased := true }

/-- One channel operation preserves the forbidden-state-free invariant, for
any buffer put policy. -/
theorem Chan.wellFormed_step (bufPut : List α → α → List α) (c : Chan α)
    (op : ChOp α) (h : c.wellFormed = true) :
    (Chan.step bufPut c op).wellFormed = true := by
  cases op with
  | put x =>
    by_cases hc : c.closed
    · simpa [Chan.step, Chan.put, hc] using h
    · cases ht : c.takers with
      | nil => simp_all [Chan.step, Chan.put, Chan.wellFormed, hc, ht]
      | cons cb rest =>
        simp_all [Chan.step, Chan.put, Chan.wellFormed, hc, ht]
  | take cb =>
    by_cases hce : c.closed && c.buffer.isEmpty
    · simpa [Chan.step, Chan.take, hce] using h
    · cases hb : c.buffer with
      | nil =>
        have hc : c.closed = false := by
          cases hcl : c.closed <;> simp_all
        simp_all [Chan.step, Chan.take, Chan.wellFormed, hb, hce]
      | cons b bs =>
        simp_all [Chan.step, Chan.take, Chan.wellFormed, hb, hce]
  | close =>
    by_cases hc : c.closed
    · simpa [Chan.step, Chan.close, hc] using h
    · simp [Chan.step, Chan.close, Chan.wellFormed, hc]

/-- Any operation sequence applied to a well-formed channel state keeps it
well-formed. -/
theorem Chan.wellFormed_foldl (bufPut : List α → α → List α)
    (ops : List (ChOp α)) :
    ∀ c : Chan α, c.wellFormed = true →
      (ops.foldl (Chan.step bufPut) c).wellFormed = true := by
  induction ops with
  | nil => intro c h; exact h
  | cons op rest ih =>
    intro c h
    exact ih _ (Chan.wellFormed_step bufPut c op h)

/-- C3: after any finite sequence of put, take and close operations starting
from a fresh single-consumer channel (with the default expanding buffer), the
state satisfies both forbidden-state checks of `checkForbiddenStates`: a
closed channel has no pending takers, and a non-empty takers queue implies an
empty buffer. -/
theorem channel_forbidden_states_never (α : Type) (ops : List (ChOp α)) :
    (Chan.run expandingPut ops).wellFormed = true :=
  Chan.wellFormed_foldl expandingPut ops Chan.fresh rfl

/-- C4: `put(v)` on a single-consumer channel drops the value and leaves the
state unchanged when the channel is closed; otherwise it delivers the value
to the oldest pending taker, removing it from the queue, when one exists; and
otherwise it stores the value in the (expanding) buffer. -/
theorem channel_put_cases (α : Type) (c : Chan α) (x : α) :
    (c.closed = true → Chan.put expandingPut x c = (c, [])) ∧
    (c.closed = false → ∀ cb rest, c.takers = cb :: rest →
      Chan.put expandingPut x c =
        ({ c with takers := rest }, [(cb, ChVal.v x)])) ∧
    (c.closed = false → c.takers = [] →
      Chan.put expandingPut x c =
        ({ c with buffer := c.buffer ++ [x] }, [])) := by
  refine ⟨fun hc => by simp [Chan.put, hc], ?_, ?_⟩
  · intro hc cb rest ht
    simp [Chan.put, hc, ht]
  · intro hc ht
    simp [Chan.put, expandingPut, hc, ht]

/-- Witness for C4 at concrete channels: a closed channel, a channel with two
pending takers, and an open channel without takers. -/
theorem channel_put_cases_witness :
    Chan.put expandingPut 7 (⟨true, [], []⟩ : Chan Nat) = (⟨true, [], []⟩, []) ∧
    Chan.put expandingPut 7 (⟨false, [], [3, 4]⟩ : Chan Nat) =
      (⟨false, [], [4]⟩, [(3, ChVal.v 7)]) ∧
    Chan.put expandingPut 7 (⟨false, [1], []⟩ : Chan Nat) =
      (⟨false, [1, 7], []⟩, []) :=
  ⟨(channel_put_cases Nat ⟨true, [], []⟩ 7).1 rfl,
   by simpa using (channel_put_cases Nat ⟨false, [], [3, 4]⟩ 7).2.1 rfl 3 [4] rfl,
   by simpa using (channel_put_cases Nat ⟨false, [1], []⟩ 7).2.2 rfl rfl⟩

/-- C9: `take(cb)` on a closed channel with an empty buffer delivers the END
sentinel to `cb` immediately and exactly once, and leaves the state unchanged
(in particular `cb` is not registered as a taker). -/
theorem take_on_closed_empty (α : Type) (cb : Nat) (c : Chan α)
    (hc : c.closed = true) (hb : c.buffer = []) :
    Chan.take cb c = (c, [(cb, ChVal.END)]) := by
  simp [Chan.take, hc, hb]

/-- Witness for C9: a concrete closed, empty channel. -/
theorem take_on_closed_empty_witness :
    Chan.take 5 (⟨true, [], []⟩ : Chan Nat) = (⟨true, [], []⟩, [(5, ChVal.END)]) :=
  take_on_closed_empty Nat 5 ⟨true, [], []⟩ rfl rfl

/-- One completion/cancel event preserves the settled-once invariant of the
digestEffect wrapper. -/
theorem EffState.step_inv (s : EffState) (op : EffOp)
    (h1 : s.settled = false → s.cbLog = [] ∧ s.downCancels = 0)
    (h2 : s.cbLog.length + s.downCancels ≤ 1) :
    ((EffState.step s op).settled = false →
      (EffState.step s op).cbLog = [] ∧ (EffState.step s op).downCancels = 0) ∧
    (EffState.step s op).cbLog.length + (EffState.step s op).downCancels ≤ 1 := by
  cases hs : s.settled with
  | true =>
    cases op <;> simp_all [EffState.step, EffState.currCb, EffState.cancelCb]
  | false =>
    obtain ⟨hl, hd⟩ := h1 hs
    cases op <;> simp_all [EffState.step, EffState.currCb, EffState.cancelCb]

/-- C1: for one digested effect, across any sequence of completion and cancel
events the underlying continuation `cb` fires at most once and the downward
cancel propagates at most once, jointly at most one of the two; moreover once
the wrapper is settled every further completion or cancel event is a no-op. -/
theorem digest_effect_settled_once (ops : List EffOp) :
    ((digestRun ops).cbLog.length + (digestRun ops).downCancels ≤ 1) ∧
    (∀ (s : EffState) (op : EffOp), s.settled = true → EffState.step s op = s) := by
  constructor
  · have main : ∀ (l : List EffOp) (s : EffState),
        (s.settled = false → s.cbLog = [] ∧ s.downCancels = 0) →
        s.cbLog.length + s.downCancels ≤ 1 →
        (l.foldl EffState.step s).cbLog.length +
          (l.foldl EffState.step s).downCancels ≤ 1 := by
      intro l
      induction l with
      | nil => intro s _ h2; exact h2
      | cons op rest ih =>
        intro s h1 h2
        obtain ⟨g1, g2⟩ := EffState.step_inv s op h1 h2
        exact ih _ g1 g2
    exact main ops EffState.init (fun _ => ⟨rfl, rfl⟩) (by simp [EffState.init])
  · intro s op h
    cases op <;> simp [EffState.step, EffState.currCb, EffState.cancelCb, h]

/-- Witness for C1: a resolve followed by a late cancel settles exactly once,
and a step on an already-settled state is the identity. -/
theorem digest_effect_settled_once_witness :
    ((digestRun [EffOp.complete 1 false, EffOp.cancel]).cbLog.length +
      (digestRun [EffOp.complete 1 false, EffOp.cancel]).downCancels ≤ 1) ∧
    EffState.step ⟨true, [(1, false)], 0⟩ EffOp.cancel = ⟨true, [(1, false)], 0⟩ :=
  ⟨(digest_effect_settled_once [EffOp.complete 1 false, EffOp.cancel]).1,
   (digest_effect_settled_once []).2 ⟨true, [(1, false)], 0⟩ EffOp.cancel rfl⟩

/-- C8: task cancellation is idempotent — running `cancel` twice equals
running it once — and is a no-op on a task that is no longer running or is
already cancelled; on a running, not-yet-cancelled task a single `cancel`
propagates exactly once: one `cancelAll` sweep over the fork queue, one
continuation invocation and one joiner notification round. -/
theorem task_cancel_idempotent (s : TaskCtl) :
    TaskCtl.cancelStep (TaskCtl.cancelStep s) = TaskCtl.cancelStep s ∧
    (s.isRunning = false → TaskCtl.cancelStep s = s) ∧
    (s.isCancelled = true → TaskCtl.cancelStep s = s) ∧
    (s.isRunning = true → s.isCancelled = false →
      (TaskCtl.cancelStep s).cancelAllCalls = s.cancelAllCalls + 1 ∧
      (TaskCtl.cancelStep s).contCalls = s.contCalls + 1 ∧
      (TaskCtl.cancelStep s).joinerRounds = s.joinerRounds + 1) := by
  obtain ⟨r, cfl, ab, x, y, z⟩ := s
  cases r <;> cases cfl <;>
    simp [TaskCtl.cancelStep, TaskCtl.endStep]

/-- Closing a channel always leaves it closed. -/
theorem Chan.close_fst_closed (c : Chan α) : ((Chan.close c).1).closed = true := by
  by_cases hc : c.closed <;> simp [Chan.close, hc]

/-- Put never changes the closed flag of a channel. -/
theorem Chan.put_fst_closed (bufPut : List α → α → List α) (x : α) (c : Chan α) :
    ((Chan.put bufPut x c).1).closed = c.closed := by
  by_cases hc : c.closed
  · simp [Chan.put, hc]
  · cases ht : c.takers <;> simp [Chan.put, hc, ht]

/-- While the `unsubscribe` variable of eventChannel is still undefined
(i.e. during the `subscribe` call), processing emissions never invokes
unsubscribe, and once END has been seen both the local flag and the inner
channel stay closed. -/
theorem evFold_pre (bufPut : List α → α → List α) (ems : List (ChVal α)) :
    ∀ s : EvChanState α, s.unsubDefined = false →
      ((ems.foldl (EvChanState.emit bufPut) s).unsubDefined = false ∧
       (ems.foldl (EvChanState.emit bufPut) s).unsubCalls = s.unsubCalls ∧
       (s.closedFlag = true → s.chan.closed = true →
         (ems.foldl (EvChanState.emit bufPut) s).closedFlag = true ∧
         (ems.foldl (EvChanState.emit bufPut) s).chan.closed = true)) := by
  induction ems with
  | nil => intro s hu; exact ⟨hu, rfl, fun h1 h2 => ⟨h1, h2⟩⟩
  | cons input rest ih =>
    intro s hu
    simp only [List.foldl_cons]
    have step : (EvChanState.emit bufPut s input).unsubDefined = false ∧
        (EvChanState.emit bufPut s input).unsubCalls = s.unsubCalls ∧
        (s.closedFlag = true → s.chan.closed = true →
          (EvChanState.emit bufPut s input).closedFlag = true ∧
          (EvChanState.emit bufPut s input).chan.closed = true) := by
      cases input with
      | END =>
        refine ⟨?_, ?_, fun h1 h2 => ⟨?_, ?_⟩⟩ <;>
          simp [EvChanState.emit, EvChanState.closeFn, hu, Chan.close_fst_closed]
      | v a =>
        refine ⟨hu, rfl, fun h1 h2 => ⟨h1, ?_⟩⟩
        simpa [EvChanState.emit, Chan.put_fst_closed] using h2
    obtain ⟨st1, st2, st3⟩ := step
    obtain ⟨r1, r2, r3⟩ := ih (EvChanState.emit bufPut s input) st1
    exact ⟨r1, by rw [r2, st2], fun h1 h2 => r3 (st3 h1 h2).1 (st3 h1 h2).2⟩

/-- Emitting END routes to `close`: the local flag and the inner channel end
up closed, and with `unsubscribe` still undefined nothing is invoked. -/
theorem emit_end_fields (bufPut : List α → α → List α) (s : EvChanState α) :
    (EvChanState.emit bufPut s ChVal.END).unsubDefined = s.unsubDefined ∧
    (s.unsubDefined = false →
      (EvChanState.emit bufPut s ChVal.END).unsubCalls = s.unsubCalls) ∧
    (EvChanState.emit bufPut s ChVal.END).closedFlag = true ∧
    (EvChanState.emit bufPut s ChVal.END).chan.closed = true := by
  refine ⟨?_, fun hu => ?_, ?_, ?_⟩ <;>
    by_cases hu2 : s.unsubDefined <;>
      simp_all [EvChanState.emit, EvChanState.closeFn, Chan.close_fst_closed]

/-- The observable fields of a constructed event channel, in terms of the
state reached by the emissions performed during subscribe. -/
theorem eventChannel_fields (bufPut : List α → α → List α)
    (ems : List (ChVal α))
    (h1 : (ems.foldl (EvChanState.emit bufPut)
      (⟨false, false, 0, Chan.fresh⟩ : EvChanState α)).closedFlag = true)
    (h2 : (ems.foldl (EvChanState.emit bufPut)
      (⟨false, false, 0, Chan.fresh⟩ : EvChanState α)).unsubCalls = 0)
    (h3 : (ems.foldl (EvChanState.emit bufPut)
      (⟨false, false, 0, Chan.fresh⟩ : EvChanState α)).chan.closed = true) :
    (eventChannel bufPut ems).unsubCalls = 1 ∧
    (eventChannel bufPut ems).chan.closed = true := by
  simp only [eventChannel]
  simp [h1, h2, h3]

/-- C10: if the subscribe function emits the END envelope synchronously,
before it has returned its unsubscribe function, construction of the event
channel still succeeds: the inner channel ends up closed and the unsubscribe
function is nevertheless invoked, exactly once, immediately after subscribe
returns. -/
theorem event_channel_sync_end (α : Type) (bufPut : List α → α → List α)
    (ems : List (ChVal α)) (h : ChVal.END ∈ ems) :
    (eventChannel bufPut ems).unsubCalls = 1 ∧
    (eventChannel bufPut ems).chan.closed = true := by
  obtain ⟨l1, l2, rfl⟩ := List.append_of_mem h
  obtain ⟨hu1, hn1, _⟩ :=
    evFold_pre bufPut l1 (⟨false, false, 0, Chan.fresh⟩ : EvChanState α) rfl
  obtain ⟨eu, en, ec, ech⟩ :=
    emit_end_fields bufPut (l1.foldl (EvChanState.emit bufPut)
      (⟨false, false, 0, Chan.fresh⟩ : EvChanState α))
  have hu2 : (EvChanState.emit bufPut (l1.foldl (EvChanState.emit bufPut)
      (⟨false, false, 0, Chan.fresh⟩ : EvChanState α)) ChVal.END).unsubDefined =
      false := by rw [eu, hu1]
  obtain ⟨ru, rn, rimp⟩ := evFold_pre bufPut l2 _ hu2
  obtain ⟨rc, rch⟩ := rimp ec ech
  have g1 : ((l1 ++ ChVal.END :: l2).foldl (EvChanState.emit bufPut)
      (⟨false, false, 0, Chan.fresh⟩ : EvChanState α)).closedFlag = true := by
    rw [List.foldl_append, List.foldl_cons]; exact rc
  have g2 : ((l1 ++ ChVal.END :: l2).foldl (EvChanState.emit bufPut)
      (⟨false, false, 0, Chan.fresh⟩ : EvChanState α)).unsubCalls = 0 := by
    rw [List.foldl_append, List.foldl_cons, rn, en hu1, hn1]
  have g3 : ((l1 ++ ChVal.END :: l2).foldl (EvChanState.emit bufPut)
      (⟨false, false, 0, Chan.fresh⟩ : EvChanState α)).chan.closed = true := by
    rw [List.foldl_append, List.foldl_cons]; exact rch
  exact eventChannel_fields bufPut _ g1 g2 g3

/-- Witness for C10: a subscribe function that synchronously emits a value
and then END. -/
theorem event_channel_sync_end_witness :
    (eventChannel nonePut [ChVal.v 3, ChVal.END]).unsubCalls = 1 ∧
    (eventChannel nonePut [ChVal.v 3, ChVal.END]).chan.closed = true :=
  event_channel_sync_end Nat nonePut [ChVal.v 3, ChVal.END] (by simp)

/-- Once a fork queue has completed, no further operation changes the
completed flag or invokes the upward continuation again. -/
theorem FQState.frozen (ops : List (FQOp α)) :
    ∀ s : FQState α, s.completed = true →
      (s.applyOps ops).completed = true ∧ (s.applyOps ops).upCalls = s.upCalls := by
  induction ops with
  | nil => intro s h; exact ⟨h, rfl⟩
  | cons op rest ih =>
    intro s h
    have hstep : (s.applyOp op).completed = true ∧
        (s.applyOp op).upCalls = s.upCalls := by
      cases op with
      | contOp id res isErr => simp [FQState.applyOp, FQState.contStep, h]
      | addTask id => simp [FQState.applyOp, h]
      | cancelAllOp => simp [FQState.applyOp, h]
    simp only [FQState.applyOps, List.foldl_cons]
    obtain ⟨h1, h2⟩ := ih (s.applyOp op) hstep.1
    exact ⟨h1, by simp only [FQState.applyOps] at h2; rw [h2, hstep.2]⟩

/-- C7: when a member of a not-yet-completed fork queue terminates with an
error, the ids of the still-running members are recorded by `onAbort`, every
other member is cancelled, the queue completes, and the error is reported
upward through the queue continuation exactly once: no operation sequence
applied afterwards ever extends the upward log again. -/
theorem fork_queue_abort_on_error (α : Type) (s : FQState α) (id : Nat)
    (res : α) (hc : s.completed = false) (hm : id ∈ s.tasks) :
    (s.contStep id res true).abortRecords =
      s.abortRecords ++ [s.tasks.erase id] ∧
    (s.contStep id res true).cancelled = s.cancelled ++ s.tasks.erase id ∧
    (s.contStep id res true).completed = true ∧
    ∀ ops : List (FQOp α),
      ((s.contStep id res true).applyOps ops).upCalls =
        s.upCalls ++ [(some res, true)] := by
  have hstep : s.contStep id res true = { s with
      tasks := [], completed := true,
      abortRecords := s.abortRecords ++ [s.tasks.erase id],
      cancelled := s.cancelled ++ s.tasks.erase id,
      upCalls := s.upCalls ++ [(some res, true)] } := by
    simp [FQState.contStep, hc, hm]
  refine ⟨by rw [hstep], by rw [hstep], by rw [hstep], fun ops => ?_⟩
  have hfrozen := (FQState.frozen ops (s.contStep id res true) (by rw [hstep])).2
  rw [hfrozen, hstep]

/-- Witness for C7: a queue with main task 0 and members 1, 2; member 1
errors; later continuation calls and cancelAll do not report again. -/
theorem fork_queue_abort_on_error_witness :
    ((⟨0, [0, 1, 2], false, none, [], [], []⟩ : FQState Nat).contStep 1 42
        true).abortRecords = [[0, 2]] ∧
    ((⟨0, [0, 1, 2], false, none, [], [], []⟩ : FQState Nat).contStep 1 42
        true).cancelled = [0, 2] ∧
    ((⟨0, [0, 1, 2], false, none, [], [], []⟩ : FQState Nat).contStep 1 42
        true).completed = true ∧
    (((⟨0, [0, 1, 2], false, none, [], [], []⟩ : FQState Nat).contStep 1 42
        true).applyOps [FQOp.contOp 0 7 true, FQOp.cancelAllOp]).upCalls =
      [(some 42, true)] := by
  obtain ⟨h1, h2, h3, h4⟩ := fork_queue_abort_on_error Nat
    ⟨0, [0, 1, 2], false, none, [], [], []⟩ 1 42 rfl (by decide)
  exact ⟨by simpa using h1, by simpa using h2, h3,
    by simpa using h4 [FQOp.contOp 0 7 true, FQOp.cancelAllOp]⟩

/-- `cb.cancel()` on a taker leaves the array referenced by `currentTakers`
untouched (the copy-on-write step redirects the mutation to a fresh
`nextTakers` array), and afterwards the two variables are not aliased. -/
theorem MState.cancelOp_preserve (s : MState α) (id : Nat) :
    (s.cancelOp id).current = s.current ∧ (s.cancelOp id).log = s.log ∧
    (s.cancelOp id).closed = s.closed ∧ (s.cancelOp id).aliased = false := by
  by_cases ha : s.aliased <;>
    simp [MState.cancelOp, MState.ensureCanMutate, MState.removeNext, ha]

/-- With the arrays already un-aliased and the channel open, a taker's action
(registering or cancelling takers) only mutates `nextTakers`: the snapshot
under iteration, the invocation log, the closed flag and the aliasing state
are untouched. -/
theorem MState.applyAct_preserve (s : MState α) (a : MAct α)
    (hal : s.aliased = false) (hcl : s.closed = false) :
    (s.applyAct a).current = s.current ∧ (s.applyAct a).log = s.log ∧
    (s.applyAct a).closed = false ∧ (s.applyAct a).aliased = false := by
  cases a with
  | register i m r =>
    simp [MState.applyAct, MState.takeOp, hcl, MState.ensureCanMutate, hal,
      MState.pushNext]
  | cancelT i =>
    have h := MState.cancelOp_preserve s i
    refine ⟨?_, ?_, ?_, ?_⟩ <;>
      simp_all [MState.applyAct]

/-- A whole taker body preserves the snapshot, the log, the closed flag and
the un-aliased state. -/
theorem MState.applyActs_preserve (acts : List (MAct α)) :
    ∀ s : MState α, s.aliased = false → s.closed = false →
    (s.applyActs acts).current = s.current ∧ (s.applyActs acts).log = s.log ∧
    (s.applyActs acts).closed = false ∧ (s.applyActs acts).aliased = false := by
  induction acts with
  | nil => intro s ha hc; exact ⟨rfl, rfl, hc, ha⟩
  | cons a rest ih =>
    intro s ha hc
    simp only [MState.applyActs, List.foldl_cons]
    obtain ⟨p1, p2, p3, p4⟩ := MState.applyAct_preserve s a ha hc
    obtain ⟨q1, q2, q3, q4⟩ := ih (s.applyAct a) p4 p3
    simp only [MState.applyActs] at q1 q2 q3 q4
    exact ⟨by rw [q1, p1], by rw [q2, p2], q3, q4⟩

/-- `cb.cancel()` evaluated on a state whose two taker variables reference
the same array: the copy-on-write step makes `nextTakers` a copy of
`currentTakers` and the removal hits only the copy. -/
theorem cancelOp_rec_true (cur nxt : List (MTaker α)) (lg : List (Nat × α))
    (el : List Nat) (id : Nat) :
    MState.cancelOp ⟨false, cur, nxt, true, lg, el⟩ id =
      ⟨false, cur, removeTaker id cur, false, lg, el⟩ := rfl

/-- `cb.cancel()` evaluated on a state whose taker variables are already
distinct arrays: the removal hits only `nextTakers`. -/
theorem cancelOp_rec_false (cur nxt : List (MTaker α)) (lg : List (Nat × α))
    (el : List Nat) (id : Nat) :
    MState.cancelOp ⟨false, cur, nxt, false, lg, el⟩ id =
      ⟨false, cur, removeTaker id nxt, false, lg, el⟩ := rfl

/-- The put iteration over the entry snapshot: it invokes exactly the
matching members of the snapshot, in order, regardless of the registrations
and removals performed by the invoked takers, and it never changes the array
under iteration. -/
theorem mputLoop_log (x : α) (snap : List (MTaker α)) :
    ∀ (f i : Nat) (s : MState α),
      s.current = snap → s.closed = false →
      (s.aliased = true → s.next = snap) →
      snap.length + 1 ≤ f + i →
      (mputLoop x f i s).log =
        s.log ++ ((snap.drop i).filter (fun t => t.matchFn x)).map
          (fun t => (t.id, x)) ∧
      (mputLoop x f i s).current = snap := by
  intro f
  induction f with
  | zero =>
    intro i s hcur hcl hal hb
    have hd : snap.length ≤ i := by omega
    simp [mputLoop, List.drop_eq_nil_of_le hd, hcur]
  | succ f ih =>
    intro i s hcur hcl hal hb
    obtain ⟨cl, cur, nxt, ali, lg, el⟩ := s
    dsimp at hcur hcl hal
    subst hcur
    subst hcl
    by_cases hi : i < cur.length
    · have hdrop : cur.drop i = cur[i] :: cur.drop (i + 1) :=
        List.drop_eq_getElem_cons hi
      simp only [mputLoop]
      rw [dif_pos hi]
      simp only [List.get_eq_getElem]
      by_cases hm : cur[i].matchFn x = true
      · rw [if_pos hm]
        cases ali with
        | true =>
          rw [cancelOp_rec_true]
          obtain ⟨a1, a2, a3, a4⟩ := MState.applyActs_preserve
            cur[i].reaction
            ⟨false, cur, removeTaker cur[i].id cur, false,
              lg ++ [(cur[i].id, x)], el⟩ rfl rfl
          obtain ⟨r1, r2⟩ := ih (i + 1) _ a1 a3
            (fun hcc => absurd (a4.symm.trans hcc) (by decide)) (by omega)
          refine ⟨?_, r2⟩
          rw [r1, a2]
          conv_rhs => rw [hdrop]
          simp only [List.filter_cons]
          rw [if_pos hm, List.map_cons]
          simp
        | false =>
          rw [cancelOp_rec_false]
          obtain ⟨a1, a2, a3, a4⟩ := MState.applyActs_preserve
            cur[i].reaction
            ⟨false, cur, removeTaker cur[i].id nxt, false,
              lg ++ [(cur[i].id, x)], el⟩ rfl rfl
          obtain ⟨r1, r2⟩ := ih (i + 1) _ a1 a3
            (fun hcc => absurd (a4.symm.trans hcc) (by decide)) (by omega)
          refine ⟨?_, r2⟩
          rw [r1, a2]
          conv_rhs => rw [hdrop]
          simp only [List.filter_cons]
          rw [if_pos hm, List.map_cons]
          simp
      · rw [if_neg hm]
        obtain ⟨r1, r2⟩ := ih (i + 1) ⟨false, cur, nxt, ali, lg, el⟩ rfl rfl
          hal (by omega)
        refine ⟨?_, r2⟩
        rw [r1]
        conv_rhs => rw [hdrop]
        simp only [List.filter_cons]
        rw [if_neg hm]
    · have hdrop : cur.drop i = [] := List.drop_eq_nil_of_le (by omega)
      simp only [mputLoop]
      rw [dif_neg hi]
      simp [hdrop]

/-- C5: a multicast put of a non-END input on an open channel invokes exactly
those takers present in the `nextTakers` snapshot taken at entry whose match
predicate accepts the input, in registration order and each exactly once;
takers registered or removed by the invoked callbacks do not affect this
put's iteration (the snapshot array is unchanged), they are only visible to
the next put. -/
theorem multicast_put_snapshot (α : Type) (fuel : Nat) (x : α) (s : MState α)
    (hcl : s.closed = false) (hf : s.next.length + 1 ≤ fuel) :
    (mput fuel (MIn.act x) s).log =
      s.log ++ (s.next.filter (fun t => t.matchFn x)).map (fun t => (t.id, x)) ∧
    (mput fuel (MIn.act x) s).current = s.next := by
  have hrun := mputLoop_log x s.next fuel 0
    { s with current := s.next, aliased := true }
    rfl hcl (fun _ => rfl) (by omega)
  simpa [mput, hcl] using hrun

/-- Witness for C5: three registered takers — the first matches and registers
a new taker from inside its callback, the second does not match, the third
matches and cancels the first — the log contains exactly the first and third,
once each, and the snapshot is untouched. -/
theorem multicast_put_snapshot_witness :
    (mput 4 (MIn.act 7)
        (⟨false, [],
          [⟨1, fun a => decide (a = 7), [MAct.register 10 (fun _ => true) []]⟩,
           ⟨2, fun _ => false, []⟩,
           ⟨3, fun _ => true, [MAct.cancelT 1]⟩], false, [], []⟩ :
          MState Nat)).log =
      ([] : List (Nat × Nat)) ++
        (([⟨1, fun a => decide (a = 7), [MAct.register 10 (fun _ => true) []]⟩,
           ⟨2, fun _ => false, []⟩,
           ⟨3, fun _ => true, [MAct.cancelT 1]⟩] :
            List (MTaker Nat)).filter (fun t => t.matchFn 7)).map
          (fun t => (t.id, 7)) ∧
    (mput 4 (MIn.act 7)
        (⟨false, [],
          [⟨1, fun a => decide (a = 7), [MAct.register 10 (fun _ => true) []]⟩,
           ⟨2, fun _ => false, []⟩,
           ⟨3, fun _ => true, [MAct.cancelT 1]⟩], false, [], []⟩ :
          MState Nat)).current =
      [⟨1, fun a => decide (a = 7), [MAct.register 10 (fun _ => true) []]⟩,
       ⟨2, fun _ => false, []⟩,
       ⟨3, fun _ => true, [MAct.cancelT 1]⟩] :=
  multicast_put_snapshot Nat 4 7
    ⟨false, [],
      [⟨1, fun a => decide (a = 7), [MAct.register 10 (fun _ => true) []]⟩,
       ⟨2, fun _ => false, []⟩,
       ⟨3, fun _ => true, [MAct.cancelT 1]⟩], false, [], []⟩
    rfl (by simp)

/-- Goodness of a trace splits over append. -/
theorem okEvents_append (a b : List SEvent) :
    okEvents (a ++ b) = (okEvents a && okEvents b) := by
  simp [okEvents, List.all_append]

/-- Running an empty task body changes nothing, at any fuel. -/
theorem runActs_nil (f : Nat) (s : SState α) : runActs f [] s = s := by
  cases f <;> rfl

/-- The counting-semaphore invariant of the scheduler, proved for all five
mutually recursive functions at once by induction on fuel: `asap` preserves
the semaphore and the stack depth and keeps the trace good; `flush` from one
lock at depth zero releases to zero; the flush loop preserves the semaphore
at depth zero; `exec` from the released state returns to it; and a task body
preserves semaphore and depth.  Goodness of the trace says: every `exec`
begins with no other `exec` frame on the stack, and every `asap` issued
inside an `exec` frame sees a non-zero semaphore and only enqueues. -/
theorem sched_invariant (α : Type) :
    ∀ f : Nat,
      (∀ (t : List (TAct α)) (s : SState α),
        s.execDepth ≤ s.semaphore → okEvents s.events = true →
        (asapFn f t s).semaphore = s.semaphore ∧
        (asapFn f t s).execDepth = s.execDepth ∧
        okEvents (asapFn f t s).events = true) ∧
      (∀ s : SState α,
        s.semaphore = 1 → s.execDepth = 0 → okEvents s.events = true →
        (flushFn f s).semaphore = 0 ∧ (flushFn f s).execDepth = 0 ∧
        okEvents (flushFn f s).events = true) ∧
      (∀ s : SState α,
        s.execDepth = 0 → okEvents s.events = true →
        (flushLoop f s).semaphore = s.semaphore ∧
        (flushLoop f s).execDepth = 0 ∧
        okEvents (flushLoop f s).events = true) ∧
      (∀ (body : List (TAct α)) (s : SState α),
        s.semaphore = 0 → s.execDepth = 0 → okEvents s.events = true →
        (execFn f body s).semaphore = 0 ∧ (execFn f body s).execDepth = 0 ∧
        okEvents (execFn f body s).events = true) ∧
      (∀ (acts : List (TAct α)) (s : SState α),
        s.execDepth ≤ s.semaphore → okEvents s.events = true →
        (runActs f acts s).semaphore = s.semaphore ∧
        (runActs f acts s).execDepth = s.execDepth ∧
        okEvents (runActs f acts s).events = true) := by
  intro f
  induction f with
  | zero =>
    refine ⟨?_, ?_, ?_, ?_, ?_⟩
    · intro t s hd he; exact ⟨rfl, rfl, he⟩
    · intro s h1 h0 he
      refine ⟨?_, ?_, ?_⟩ <;> simp [flushFn, h1, h0, he]
    · intro s h0 he; exact ⟨rfl, h0, he⟩
    · intro body s h0 hd he; exact ⟨h0, hd, he⟩
    · intro acts s hd he; exact ⟨rfl, rfl, he⟩
  | succ f ih =>
    obtain ⟨ihA, ihF, ihL, ihE, ihR⟩ := ih
    refine ⟨?_, ?_, ?_, ?_, ?_⟩
    · -- asapFn
      intro t s hd he
      obtain ⟨sem, q, dep, ev, del⟩ := s
      dsimp at hd he ⊢
      by_cases hs : sem = 0
      · subst hs
        have hd0 : dep = 0 := by omega
        subst hd0
        have hok : okEvents (ev ++ [SEvent.asapCall 0 0 true]) = true := by
          rw [okEvents_append, he]
          simp [okEvents, SEvent.ok]
        obtain ⟨g1, g2, g3⟩ := ihF
          ⟨0 + 1, q ++ [t], 0, ev ++ [SEvent.asapCall 0 0 true], del⟩
          rfl rfl hok
        simp only [asapFn]
        split
        · exact ⟨g1, g2, g3⟩
        · next h => exact absurd trivial h
      · simp only [asapFn]
        split
        · next h => exact absurd h hs
        · refine ⟨rfl, rfl, ?_⟩
          rw [okEvents_append, he]
          simp only [okEvents, SEvent.ok, List.all_cons, List.all_nil,
            Bool.true_and, Bool.and_true, Bool.not_false, Bool.or_eq_true,
            decide_eq_true_eq]
          omega
    · -- flushFn
      intro s h1 h0 he
      obtain ⟨sem, q, dep, ev, del⟩ := s
      dsimp at h1 h0 he ⊢
      subst h1
      subst h0
      simp only [flushFn]
      obtain ⟨l1, l2, l3⟩ := ihL ⟨1 - 1, q, 0, ev, del⟩ rfl he
      exact ⟨by rw [l1], l2, l3⟩
    · -- flushLoop
      intro s h0 he
      obtain ⟨sem, q, dep, ev, del⟩ := s
      dsimp at h0 he ⊢
      subst h0
      by_cases hs : sem = 0
      · subst hs
        cases q with
        | nil =>
          refine ⟨?_, ?_, ?_⟩ <;> simp [flushLoop, he]
        | cons t rest =>
          obtain ⟨e1, e2, e3⟩ := ihE t ⟨0, rest, 0, ev, del⟩ rfl rfl he
          obtain ⟨l1, l2, l3⟩ :=
            ihL (execFn f t ⟨0, rest, 0, ev, del⟩) e2 e3
          simp only [flushLoop]
          split
          · exact ⟨l1.trans e1, l2, l3⟩
          · next h => exact absurd trivial h
      · simp only [flushLoop]
        split
        · next h => exact absurd h hs
        · exact ⟨rfl, rfl, he⟩
    · -- execFn
      intro body s h0 hd he
      obtain ⟨sem, q, dep, ev, del⟩ := s
      dsimp at h0 hd he ⊢
      subst h0
      subst hd
      have hok : okEvents (ev ++ [SEvent.execBegin 0]) = true := by
        rw [okEvents_append, he]
        simp [okEvents, SEvent.ok]
      obtain ⟨r1, r2, r3⟩ := ihR body
        ⟨0 + 1, q, 0 + 1, ev ++ [SEvent.execBegin 0], del⟩ (by simp) hok
      simp only [execFn]
      refine ⟨?_, ?_, r3⟩
      · simp [r1]
      · simp [r2]
    · -- runActs
      intro acts s hd he
      cases acts with
      | nil => exact ⟨rfl, rfl, he⟩
      | cons a rest =>
        cases a with
        | asapA body =>
          obtain ⟨p1, p2, p3⟩ := ihA body s hd he
          obtain ⟨q1, q2, q3⟩ := ihR rest (asapFn f body s)
            (by rw [p1, p2]; exact hd) p3
          simp only [runActs]
          exact ⟨by rw [q1, p1], by rw [q2, p2], q3⟩
        | emit v =>
          obtain ⟨q1, q2, q3⟩ := ihR rest
            { s with delivered := s.delivered ++ [v] } hd he
          simp only [runActs]
          exact ⟨q1, q2, q3⟩

/-- A trace of top-level asap calls preserves the semaphore invariant and a
good event trace. -/
theorem runTop_inv (α : Type) (f : Nat) (ts : List (List (TAct α))) :
    ∀ s : SState α, s.execDepth ≤ s.semaphore → okEvents s.events = true →
      okEvents (ts.foldl (fun s t => asapFn f t s) s).events = true ∧
      (ts.foldl (fun s t => asapFn f t s) s).execDepth ≤
        (ts.foldl (fun s t => asapFn f t s) s).semaphore := by
  induction ts with
  | nil => intro s hd he; exact ⟨he, hd⟩
  | cons t rest ih =>
    intro s hd he
    simp only [List.foldl_cons]
    obtain ⟨a1, a2, a3⟩ := (sched_invariant α f).1 t s hd he
    exact ih (asapFn f t s) (by rw [a1, a2]; exact hd) a3

/-- C2: in every scheduler trace driven by top-level asap calls, no
asap-enqueued task begins execution while another scheduled task is on the
stack — every recorded `exec` entry happens at stack depth zero — and every
asap issued from inside a running task sees a semaphore of at least 1 and
therefore only appends to the queue. -/
theorem scheduler_no_nested_exec (α : Type) (f : Nat)
    (ts : List (List (TAct α))) :
    okEvents (runTop f ts).events = true := by
  have h := runTop_inv α f ts initSState (by simp [initSState])
    (by simp [okEvents, initSState])
  simpa [runTop] using h.1

/-- Draining a queue of pure-delivery tasks: run in the released state, the
flush loop delivers them in order and empties the queue. -/
theorem flushLoop_drain (qs : List (SagaAction α)) :
    ∀ (g : Nat) (t : SState (SagaAction α)),
      t.semaphore = 0 → t.execDepth = 0 →
      t.queue = qs.map (fun b => [TAct.emit b]) → qs.length + 2 ≤ g →
      (flushLoop g t).delivered = t.delivered ++ qs ∧
      (flushLoop g t).queue = [] ∧ (flushLoop g t).semaphore = 0 := by
  induction qs with
  | nil =>
    intro g t h0 hd hq hg
    obtain ⟨sem, q, dep, ev, del⟩ := t
    dsimp at h0 hd hq ⊢
    subst h0
    subst hd
    subst hq
    cases g with
    | zero => omega
    | succ g1 =>
      refine ⟨?_, ?_, ?_⟩ <;> simp [flushLoop]
  | cons b rest ih =>
    intro g t h0 hd hq hg
    obtain ⟨sem, q, dep, ev, del⟩ := t
    dsimp at h0 hd hq ⊢
    subst h0
    subst hd
    subst hq
    simp only [List.length_cons] at hg
    cases g with
    | zero => omega
    | succ g1 =>
      cases g1 with
      | zero => omega
      | succ g2 =>
        cases g2 with
        | zero => omega
        | succ g3 =>
          have hexec : execFn (Nat.succ (Nat.succ g3)) [TAct.emit b]
              ⟨0, rest.map (fun c => [TAct.emit c]), 0, ev, del⟩ =
              ⟨0, rest.map (fun c => [TAct.emit c]), 0,
                ev ++ [SEvent.execBegin 0], del ++ [b]⟩ := by
            simp only [execFn, runActs]
            rw [runActs_nil]
            simp
          simp only [flushLoop, List.map_cons]
          split
          · rw [hexec]
            obtain ⟨d1, d2, d3⟩ := ih (Nat.succ (Nat.succ g3))
              ⟨0, rest.map (fun c => [TAct.emit c]), 0,
                ev ++ [SEvent.execBegin 0], del ++ [b]⟩ rfl rfl rfl (by omega)
            exact ⟨by simpa using d1, d2, d3⟩
          · next hcon => exact absurd trivial hcon

/-- C6: the standard channel's put routes by the saga-action flag: a flagged
input is handed to the underlying multicast put synchronously, within the
same call and without touching the scheduler; an unflagged input goes through
asap — while the scheduler holds a lock it is only enqueued, nothing is
delivered; from the released state it is delivered within the same call; and
a queue of deferred puts is delivered in order by the flush that releases
the lock. -/
theorem std_channel_put_routing (α : Type) (f : Nat) (a : SagaAction α)
    (s : SState (SagaAction α)) :
    (a.sagaFlag = true →
      stdPut f a s = { s with delivered := s.delivered ++ [a] }) ∧
    (a.sagaFlag = false → 1 ≤ s.semaphore → 1 ≤ f →
      stdPut f a s = { s with
        queue := s.queue ++ [[TAct.emit a]],
        events := s.events ++
          [SEvent.asapCall s.semaphore s.execDepth false] }) ∧
    (a.sagaFlag = false → s.semaphore = 0 → s.queue = [] → s.execDepth = 0 →
      5 ≤ f →
      stdPut f a s = { s with
        events := s.events ++ [SEvent.asapCall 0 0 true, SEvent.execBegin 0],
        delivered := s.delivered ++ [a] }) ∧
    (∀ (qs : List (SagaAction α)) (t : SState (SagaAction α)),
      t.semaphore = 1 → t.execDepth = 0 →
      t.queue = qs.map (fun b => [TAct.emit b]) → qs.length + 3 ≤ f →
      (flushFn f t).delivered = t.delivered ++ qs ∧
      (flushFn f t).queue = [] ∧ (flushFn f t).semaphore = 0) := by
  refine ⟨?_, ?_, ?_, ?_⟩
  · intro h
    simp [stdPut, h]
  · intro h h1 hf
    obtain ⟨sem, q, dep, ev, del⟩ := s
    dsimp at h1 ⊢
    cases f with
    | zero => omega
    | succ f1 =>
      rw [show stdPut (Nat.succ f1) a ⟨sem, q, dep, ev, del⟩ =
          asapFn (Nat.succ f1) [TAct.emit a] ⟨sem, q, dep, ev, del⟩
          from by simp [stdPut, h]]
      simp only [asapFn]
      split
      · next hcon => omega
      · rfl
  · intro h h0 hq hd hf
    obtain ⟨g, rfl⟩ : ∃ g, f = g + 5 := ⟨f - 5, by omega⟩
    obtain ⟨sem, q, dep, ev, del⟩ := s
    dsimp at h0 hq hd
    subst h0
    subst hq
    subst hd
    simp [stdPut, asapFn, flushFn, flushLoop, execFn, runActs, runActs_nil, h]
  · intro qs t h1 hd hq hg
    cases f with
    | zero => omega
    | succ f1 =>
      obtain ⟨sem, q, dep, ev, del⟩ := t
      dsimp at h1 hd hq ⊢
      subst h1
      subst hd
      subst hq
      simp only [flushFn]
      exact flushLoop_drain qs f1
        ⟨1 - 1, qs.map (fun b => [TAct.emit b]), 0, ev, del⟩ rfl rfl rfl
        (by omega)

/-- Witness for C6: a flagged put on the scheduler at rest, an unflagged put
under one lock, an unflagged put at rest, and a release-flush of a queue of
two deferred puts. -/
theorem std_channel_put_routing_witness :
    stdPut 6 (⟨true, 9⟩ : SagaAction Nat) initSState =
      { initSState with delivered := [⟨true, 9⟩] } ∧
    stdPut 6 (⟨false, 9⟩ : SagaAction Nat) ⟨2, [], 1, [], []⟩ =
      ⟨2, [[TAct.emit ⟨false, 9⟩]], 1, [SEvent.asapCall 2 1 false], []⟩ ∧
    stdPut 6 (⟨false, 9⟩ : SagaAction Nat) initSState =
      ⟨0, [], 0, [SEvent.asapCall 0 0 true, SEvent.execBegin 0],
        [⟨false, 9⟩]⟩ ∧
    ((flushFn 6 (⟨1, [[TAct.emit (⟨false, 1⟩ : SagaAction Nat)],
          [TAct.emit ⟨false, 2⟩]], 0, [], []⟩ : SState (SagaAction Nat))).delivered =
        [] ++ [⟨false, 1⟩, ⟨false, 2⟩] ∧
      (flushFn 6 (⟨1, [[TAct.emit (⟨false, 1⟩ : SagaAction Nat)],
          [TAct.emit ⟨false, 2⟩]], 0, [], []⟩ : SState (SagaAction Nat))).queue = [] ∧
      (flushFn 6 (⟨1, [[TAct.emit (⟨false, 1⟩ : SagaAction Nat)],
          [TAct.emit ⟨false, 2⟩]], 0, [], []⟩ : SState (SagaAction Nat))).semaphore = 0) := by
  refine ⟨?_, ?_, ?_, ?_⟩
  · simpa using
      (std_channel_put_routing Nat 6 ⟨true, 9⟩ initSState).1 rfl
  · simpa using
      (std_channel_put_routing Nat 6 ⟨false, 9⟩ ⟨2, [], 1, [], []⟩).2.1 rfl
        (by decide) (by decide)
  · simpa using
      (std_channel_put_routing Nat 6 ⟨false, 9⟩ initSState).2.2.1 rfl rfl rfl
        rfl (by decide)
  · exact
      (std_channel_put_routing Nat 6 ⟨false, 9⟩ initSState).2.2.2
        [⟨false, 1⟩, ⟨false, 2⟩]
        ⟨1, [[TAct.emit ⟨false, 1⟩], [TAct.emit ⟨false, 2⟩]], 0, [], []⟩
        rfl rfl rfl (by decide)

/-- Witness for C8: cancelling a fresh running task propagates once, and
cancelling a terminated task is a no-op. -/
theorem task_cancel_idempotent_witness :
    ((TaskCtl.cancelStep TaskCtl.fresh).cancelAllCalls = 0 + 1 ∧
      (TaskCtl.cancelStep TaskCtl.fresh).contCalls = 0 + 1 ∧
      (TaskCtl.cancelStep TaskCtl.fresh).joinerRounds = 0 + 1) ∧
    TaskCtl.cancelStep ⟨false, false, true, 1, 1, 1⟩ = ⟨false, false, true, 1, 1, 1⟩ :=
  ⟨(task_cancel_idempotent TaskCtl.fresh).2.2.2 rfl rfl,
   (task_cancel_idempotent ⟨false, false, true, 1, 1, 1⟩).2.1 rfl⟩

end SagaCore
